import Mathlib

/-!
Verification of the section-extraction / relevance-ranking engine of
`nlp_analyzer.py` (class `NLPAnalyzer`).

Modelling conventions (shallow embedding):
* Python strings are `List Char`; only the ASCII behaviour of `str.lower`,
  `\w` and `\s` is modelled (the repository's keyword tables and markers are
  ASCII).
* Python floats are modelled as exact rationals `ℚ`; `round(x, 2)` is
  modelled as rounding `x*100` to the nearest integer.
* `math.log` is an external C-library call returning a float; it is modelled
  by an abstract parameter `lnq : ℚ → ℚ` that every theorem quantifies over.
* The TF-IDF vectorizer and `cosine_similarity` are external `sklearn`
  calls.  Their outcome is modelled by an oracle argument
  `sims : Option (List ℚ)`: `some l` is the vector of cosine similarities
  between the query and each section, `none` is the case in which
  `fit_transform` raises (degenerate corpus: empty vocabulary or fewer than
  two usable documents), which the code catches with `except` and answers
  with keyword-only scores.  Theorems quantify over the oracle, so they hold
  for whatever the library computes.
* The `re.finditer` boundary search of `extract_sections` runs five regular
  expressions from the external `re` library; the list of match offsets it
  produces is abstracted as an argument `offsets : List ℕ`, and the theorems
  about `extract_sections` hold for every offset list.
* Every Lean function here is total, which reflects that the corresponding
  Python code path raises no exception; the one Python-partial spot, the
  division `count / len(content.split())` in `_calculate_keyword_score`, is
  analysed separately (its guard implies a non-zero denominator).
-/

set_option maxRecDepth 4000

namespace DocInsight

/-! ### Python string primitives -/

/-- The six ASCII whitespace characters recognised by `str.split`, `str.strip`
and the regex class `\s`: space, tab, newline, carriage return, vertical tab
and form feed (given by code point to keep proofs by `omega` simple). -/
def isSpaceChar (c : Char) : Bool :=
  c.toNat = 32 || c.toNat = 9 || c.toNat = 10 || c.toNat = 13 ||
    c.toNat = 11 || c.toNat = 12

/-- ASCII model of `str.lower` applied to one character: shift `A`-`Z` (code
points 65-90) up by 32, leave everything else unchanged. -/
def lowerChar (c : Char) : Char :=
  if 65 ≤ c.toNat ∧ c.toNat ≤ 90 then Char.ofNat (c.toNat + 32) else c

/-- ASCII model of the regex class `\w`: alphanumeric or underscore. -/
def isWordChar (c : Char) : Bool :=
  c.isAlphanum || c = '_'

/-- One character of `re.sub(r'[^\w\s]', ' ', text)`: anything that is neither
a word character nor whitespace becomes a space. -/
def cleanChar (c : Char) : Char :=
  if isWordChar c || isSpaceChar c then c else ' '

/-- Accumulator-based splitter behind `pySplit`; `acc` holds the reversed
characters of the token currently being read. -/
def pySplitAux : List Char → List Char → List (List Char)
  | [], acc => if acc = [] then [] else [acc.reverse]
  | c :: rest, acc =>
    if isSpaceChar c then
      if acc = [] then pySplitAux rest [] else acc.reverse :: pySplitAux rest []
    else pySplitAux rest (c :: acc)

/-- Python `str.split()` with no argument: maximal runs of non-whitespace. -/
def pySplit (s : List Char) : List (List Char) :=
  pySplitAux s []

/-- Python `str.strip()`: remove leading and trailing whitespace. -/
def pyStrip (s : List Char) : List Char :=
  ((s.dropWhile isSpaceChar).reverse.dropWhile isSpaceChar).reverse

/-- Python `text.split('\n')`: split at every newline, keeping empty pieces. -/
def splitOnNewline : List Char → List (List Char)
  | [] => [[]]
  | c :: rest =>
    match splitOnNewline rest with
    | [] => if c = '\n' then [[], []] else [[c]]
    | h :: t => if c = '\n' then [] :: h :: t else (c :: h) :: t

/-- Python slicing `l[:m]` for an arbitrary integer `m`: a non-negative bound
takes a prefix, a negative bound drops `|m|` elements from the end (clamped
at zero). -/
def pySlice (l : List α) (m : ℤ) : List α :=
  if 0 ≤ m then l.take m.toNat else l.take (l.length - (-m).toNat)

/-- Fuel-driven helper for `pyCount`; the fuel makes the recursion structural
so that concrete instances reduce inside the kernel. -/
def pyCountAux (pat : List Char) : ℕ → List Char → ℕ
  | _, [] => 0
  | 0, _ :: _ => 0
  | fuel + 1, c :: rest =>
    if pat.isPrefixOf (c :: rest) then
      1 + pyCountAux pat fuel ((c :: rest).drop pat.length)
    else pyCountAux pat fuel rest

/-- Python `s.count(pat)`: number of non-overlapping occurrences, scanning
left to right (`''.count` conventionally gives `len(s) + 1`). -/
def pyCount (s pat : List Char) : ℕ :=
  if pat = [] then s.length + 1 else pyCountAux pat s.length s

/-- Python's substring test `pat in s` on strings. -/
def substrIn (pat : List Char) : List Char → Bool
  | [] => pat.isEmpty
  | c :: rest => pat.isPrefixOf (c :: rest) || substrIn pat rest

/-! ### Section records

The Python code stores sections as dictionaries; `relevance_score` is set by
`rank_sections` (the spec models scoring as producing a new record, which is
what the functional update below does) and `document` is attached by the
caller of `extract_sections`. -/

structure Section where
  title : List Char
  content : List Char
  page_number : ℕ
  word_count : ℕ
  document : List Char
  relevance_score : ℚ
  deriving DecidableEq, Repr

/-! ### Keyword extraction (`_extract_keywords`) -/

/-- The stop-word set of `_extract_keywords`, verbatim from the source. -/
def stop_words : List (List Char) :=
  ([r"the", r"a", r"an", r"and", r"or", r"but", r"in", r"on", r"at", r"to",
    r"for", r"of", r"with", r"by", r"from", r"up", r"about", r"into",
    r"through", r"during", r"before", r"after", r"above", r"below",
    r"between", r"among", r"under", r"over", r"is", r"are", r"was", r"were",
    r"be", r"been", r"being", r"have", r"has", r"had", r"do", r"does",
    r"did", r"will", r"would", r"could", r"should", r"may", r"might",
    r"must", r"can", r"this", r"that", r"these", r"those"]).map String.toList

/-- First-occurrence deduplication, the iteration order of a Python
`Counter` (insertion order of first occurrences). -/
def dedupFirstAux (seen : List (List Char)) : List (List Char) → List (List Char)
  | [] => []
  | w :: ws => if w ∈ seen then dedupFirstAux seen ws else w :: dedupFirstAux (w :: seen) ws

/-- Distinct words of `ws` in order of first occurrence. -/
def dedupFirst (ws : List (List Char)) : List (List Char) :=
  dedupFirstAux [] ws

/-- `Counter(ws).most_common n`: the distinct words sorted by descending
frequency with a stable sort (ties keep first-occurrence order), truncated
to `n`. -/
def most_common (ws : List (List Char)) (n : ℕ) : List (List Char) :=
  (List.insertionSort (fun a b => ws.count b ≤ ws.count a) (dedupFirst ws)).take n

/-- Embedding of `_extract_keywords` (`nlp_analyzer.py` lines 174-199):
lowercase, replace non-word non-space characters by spaces, tokenize, drop
tokens of length `≤ 2` and stop words, return the 20 most frequent. -/
def extract_keywords (text : List Char) : List (List Char) :=
  if text = [] then []
  else
    let cleaned := (text.map lowerChar).map cleanChar
    let words := pySplit cleaned
    let keywords := words.filter (fun w => decide (2 < w.length) && !(stop_words.contains w))
    most_common keywords 20

/-! ### Keyword scoring (`_calculate_keyword_score`, `_get_persona_keywords`) -/

/-- Embedding of `_get_persona_keywords` (lines 232-242): the fixed
persona-to-keywords table; unknown personas map to the empty list. -/
def get_persona_keywords (persona : List Char) : List (List Char) :=
  if persona = (r"Travel Planner").toList then
    ([r"travel", r"trip", r"destination", r"hotel", r"restaurant",
      r"activity", r"tour", r"visit", r"explore"]).map String.toList
  else if persona = (r"Business Analyst").toList then
    ([r"business", r"market", r"analysis", r"data", r"revenue", r"strategy",
      r"competitive", r"trend"]).map String.toList
  else if persona = (r"Research Scientist").toList then
    ([r"research", r"study", r"method", r"data", r"analysis", r"findings",
      r"experiment", r"results"]).map String.toList
  else if persona = (r"Marketing Manager").toList then
    ([r"marketing", r"campaign", r"audience", r"brand", r"promotion",
      r"advertising", r"customer"]).map String.toList
  else if persona = (r"Project Manager").toList then
    ([r"project", r"timeline", r"requirements", r"deliverable", r"milestone",
      r"resource", r"planning"]).map String.toList
  else []

/-- Python `round(q, 2)` modelled over exact rationals: round `q * 100` to
the nearest integer and divide by 100 again.  The formula below is the
kernel-computable form of `(round (q * 100) : ℚ) / 100`, since
`⌊q * 100 + 1/2⌋ = (200 * q.num + q.den) / (2 * q.den)` in integer floor
division; the theorem `round2_eq_round` certifies the equality. -/
def round2 (q : ℚ) : ℚ :=
  Rat.divInt ((200 * q.num + (q.den : ℤ)) / (2 * (q.den : ℤ))) 100

/-- Embedding of `_calculate_keyword_score` (lines 201-230).  `lnq` stands
for `math.log`.  In Lean the division is total (`x / 0 = 0`); the
corresponding Python expression is reached only under the substring guard,
which forces a non-zero denominator (proved below). -/
def calculate_keyword_score (lnq : ℚ → ℚ) (content persona job : List Char) : ℚ :=
  if content = [] then 0
  else
    let content_lower := content.map lowerChar
    let wc := (pySplit content).length
    let s1 : ℚ := (extract_keywords job).foldl (fun sc kw =>
      let kwl := kw.map lowerChar
      if substrIn kwl content_lower then
        sc + ((pyCount content_lower kwl : ℚ) / (wc : ℚ)) * 15
      else sc) 0
    let s2 : ℚ := (get_persona_keywords persona).foldl (fun sc kw =>
      if substrIn (kw.map lowerChar) content_lower then sc + 8 else sc) s1
    let s3 : ℚ :=
      if 50 ≤ wc ∧ wc ≤ 500 then s2 + 2
      else if 500 < wc then s2 + lnq ((wc : ℚ) / 500)
      else s2
    round2 s3

/-! ### Ranking (`rank_sections`) -/

/-- Descending comparison on `relevance_score`; `List.insertionSort` with
this relation is the stable descending sort performed by
`scored_sections.sort(key=..., reverse=True)` (Python's sort is stable). -/
def scoreGe (a b : Section) : Prop :=
  b.relevance_score ≤ a.relevance_score

instance : DecidableRel scoreGe :=
  fun a b => inferInstanceAs (Decidable (b.relevance_score ≤ a.relevance_score))

instance : IsTotal Section scoreGe :=
  ⟨fun a b => le_total b.relevance_score a.relevance_score⟩

instance : IsTrans Section scoreGe :=
  ⟨fun _ _ _ h₁ h₂ => le_trans h₂ h₁⟩

/-- The Ranker step of `rank_sections` (lines 124-127): stable descending
sort by `relevance_score`, then the Python slice `[:max_sections]`. -/
def rank (scored_sections : List Section) (max_sections : ℤ) : List Section :=
  pySlice (List.insertionSort scoreGe scored_sections) max_sections

/-- Fallback scoring (lines 114-122): the keyword score alone, unscaled. -/
def scoreSectionFallback (lnq : ℚ → ℚ) (persona job : List Char) (s : Section) : Section :=
  { s with relevance_score := calculate_keyword_score lnq s.content persona job }

/-- Primary-path scoring of one section paired with its cosine similarity
(lines 93-109): similarity scaled to 0-100, blended 0.7 / 0.3 with the
keyword score, rounded to two decimals. -/
def scoreSectionPrimary (lnq : ℚ → ℚ) (persona job : List Char) (sv : Section × ℚ) : Section :=
  { sv.1 with relevance_score := round2 ((sv.2 * 100) * (7 / 10) +
      (calculate_keyword_score lnq sv.1.content persona job) * (3 / 10)) }

/-- The scored pool built by the `try`/`except` of `rank_sections` (lines
84-122).  `sims = some l` is the similarity vector delivered by the external
TF-IDF pipeline; `none` is the caught vectorizer exception, answered with
keyword-only scores.  A similarity vector of the wrong length would raise
`IndexError` inside the `try` block, which the same `except` turns into the
full fallback (the handler re-assigns every section's score), hence the
length test. -/
def scoredPool (lnq : ℚ → ℚ) (sims : Option (List ℚ)) (sections : List Section)
    (persona job : List Char) : List Section :=
  match sims with
  | some l =>
    if l.length = sections.length then
      (sections.zip l).map (scoreSectionPrimary lnq persona job)
    else sections.map (scoreSectionFallback lnq persona job)
  | none => sections.map (scoreSectionFallback lnq persona job)

/-- Embedding of `rank_sections` (lines 71-127): guard the empty pool, score
every section, sort descending by score with a stable sort, slice. -/
def rank_sections (lnq : ℚ → ℚ) (sims : Option (List ℚ)) (sections : List Section)
    (persona job : List Char) (max_sections : ℤ) : List Section :=
  if sections = [] then []
  else rank (scoredPool lnq sims sections persona job) max_sections

/-! ### Page numbers (`_extract_page_number`) -/

/-- The literal head of a page marker, the characters of `[PAGE `. -/
def pageMarkerHead : List Char :=
  ['[', 'P', 'A', 'G', 'E', ' ']

/-- Match of the regex `\[PAGE (\d+)\]` anchored at the head of `s`,
returning the captured digit run.  Greediness of `\d+` is exact here because
the following literal `]` is not a digit. -/
def matchPageAt (s : List Char) : Option (List Char) :=
  if pageMarkerHead.isPrefixOf s then
    let rest := s.drop 6
    let ds := rest.takeWhile Char.isDigit
    if ds.isEmpty then none
    else
      match rest.dropWhile Char.isDigit with
      | ']' :: _ => some ds
      | _ => none
  else none

/-- Leftmost match of `\[PAGE (\d+)\]` in `s` (`re.search`). -/
def findPage : List Char → Option (List Char)
  | [] => none
  | c :: rest =>
    match matchPageAt (c :: rest) with
    | some ds => some ds
    | none => findPage rest

/-- Python `int` on a digit string. -/
def digitsToNat (ds : List Char) : ℕ :=
  ds.foldl (fun a c => a * 10 + (c.toNat - 48)) 0

/-- Embedding of `_extract_page_number` (lines 167-172): value of the first
`[PAGE n]` marker, defaulting to 1. -/
def extract_page_number (s : List Char) : ℕ :=
  match findPage s with
  | some ds => digitsToNat ds
  | none => 1

/-! ### Titles (`_extract_title`) -/

/-- Fuel-driven global `re.sub(r'\[PAGE \d+\]', '', line)`: delete every
(leftmost, non-overlapping) page marker. -/
def stripPageMarkersAux : ℕ → List Char → List Char
  | _, [] => []
  | 0, l => l
  | fuel + 1, c :: rest =>
    match matchPageAt (c :: rest) with
    | some ds => stripPageMarkersAux fuel ((c :: rest).drop (7 + ds.length))
    | none => c :: stripPageMarkersAux fuel rest

/-- Delete every `[PAGE n]` marker from `l`. -/
def stripPageMarkers (l : List Char) : List Char :=
  stripPageMarkersAux l.length l

/-- Anchored `re.sub(r'^\d+\.\s*', '', title)`: drop a leading run of digits
followed by a dot and any whitespace. -/
def stripLeadingNumber (l : List Char) : List Char :=
  let ds := l.takeWhile Char.isDigit
  if ds = [] then l
  else
    match l.drop ds.length with
    | '.' :: rest => rest.dropWhile isSpaceChar
    | _ => l

/-- Model of `re.sub(r':$', '', title)` on its call site, where `title` has
already been stripped of surrounding whitespace (so `$` is the very end). -/
def stripTrailingColon (l : List Char) : List Char :=
  if l.getLast? = some ':' then l.dropLast else l

/-- Cleaning applied by `_extract_title` to a candidate title line. -/
def cleanTitleLine (line : List Char) : List Char :=
  stripTrailingColon (stripLeadingNumber (pyStrip (stripPageMarkers line)))

/-- Loop of `_extract_title`: the first stripped line with 2-15 tokens whose
cleaned form is non-empty. -/
def firstTitle : List (List Char) → Option (List Char)
  | [] => none
  | ln :: rest =>
    let line := pyStrip ln
    if line ≠ [] ∧ 2 ≤ (pySplit line).length ∧ (pySplit line).length ≤ 15 then
      let t := cleanTitleLine line
      if t ≠ [] then some t else firstTitle rest
    else firstTitle rest

/-- Embedding of `_extract_title` (lines 148-165), with the first-8-words
fallback. -/
def extract_title (text : List Char) : List Char :=
  match firstTitle (splitOnNewline text) with
  | some t => t
  | none =>
    let ws := pySplit text
    (List.intercalate [' '] (ws.take 8)) ++ (if 8 < ws.length then ['.', '.', '.'] else [])

/-! ### Segmentation (`extract_sections`) -/

/-- Ascending insertion used to model Python's `sorted`. -/
def insertAsc (n : ℕ) : List ℕ → List ℕ
  | [] => [n]
  | m :: ms => if n ≤ m then n :: m :: ms else m :: insertAsc n ms

/-- Ascending sort used to model Python's `sorted`. -/
def sortAsc : List ℕ → List ℕ
  | [] => []
  | n :: ns => insertAsc n (sortAsc ns)

/-- The record built for one surviving candidate (lines 62-67): title and
page number derived from the (stripped) slice, `word_count` its token count.
`document` is attached by the caller and `relevance_score` by the scorer,
so both carry their neutral defaults here. -/
def mkSection (sectionText : List Char) : Section :=
  { title := extract_title sectionText
    content := sectionText
    page_number := extract_page_number sectionText
    word_count := (pySplit sectionText).length
    document := []
    relevance_score := 0 }

/-- One step of the extraction loop (lines 50-67): slice the text between a
consecutive boundary pair, strip it, and keep it when its token count
reaches `min_length`. -/
def sectionOfSlice (text : List Char) (min_length : ℤ) (be : ℕ × ℕ) : Option Section :=
  if min_length ≤ ((pySplit (pyStrip ((text.drop be.1).take (be.2 - be.1)))).length : ℤ) then
    some (mkSection (pyStrip ((text.drop be.1).take (be.2 - be.1))))
  else none

/-- Embedding of `extract_sections` (lines 23-69).  `offsets` is the merged
list of `match.start()` values produced by the five boundary regexes (see
the module docstring); the code then adds `0` and `len(text)`, deduplicates
and sorts (`sorted(set(...))`), and processes consecutive boundary pairs. -/
def extract_sections (offsets : List ℕ) (text : List Char) (min_length : ℤ) : List Section :=
  if text = [] then []
  else
    ((sortAsc ((0 :: offsets ++ [text.length]).dedup)).zip
      (sortAsc ((0 :: offsets ++ [text.length]).dedup)).tail).filterMap
      (sectionOfSlice text min_length)

/-! ### Summarizer (`_get_important_sentences`) -/

/-- Scoring loop of `_get_important_sentences` (lines 260-272): sentences
with fewer than 5 tokens are skipped, the rest are paired with
`token count + 2 * number of extracted keywords`, in input order. -/
def scoredSentences : List (List Char) → List (List Char × ℕ)
  | [] => []
  | s :: rest =>
    if (pySplit s).length < 5 then scoredSentences rest
    else (s, (pySplit s).length + 2 * (extract_keywords s).length) :: scoredSentences rest

/-- Descending comparison on the attached sentence score. -/
def sndGe (a b : List Char × ℕ) : Prop :=
  b.2 ≤ a.2

instance : DecidableRel sndGe :=
  fun a b => inferInstanceAs (Decidable (b.2 ≤ a.2))

/-- Embedding of `_get_important_sentences` (lines 254-277): score, stable
descending sort, take the best `max_sentences`. -/
def get_important_sentences (sentences : List (List Char)) (max_sentences : ℕ) : List (List Char) :=
  if sentences = [] then []
  else ((List.insertionSort sndGe (scoredSentences sentences)).take max_sentences).map Prod.fst

/-! ### Lemmas: rounding -/

/-- The kernel-computable `round2` is rounding to two decimal places in the
usual sense: `round2 q = round (q * 100) / 100`. -/
theorem round2_eq_round (q : ℚ) : round2 q = (round (q * 100) : ℚ) / 100 := by
  have hd0 : (q.den : ℚ) ≠ 0 := by
    exact_mod_cast q.den_nz
  have hnum : (q.num : ℚ) = q * (q.den : ℚ) := (div_eq_iff hd0).mp (Rat.num_div_den q)
  have h1 : q * 100 + 1/2 = ((200 * q.num + (q.den : ℤ) : ℤ) : ℚ) / ((2 * q.den : ℕ) : ℚ) := by
    push_cast
    field_simp
    rw [hnum]
    ring
  rw [round2, round_eq, h1, Rat.floor_intCast_div_natCast, Rat.divInt_eq_div]
  push_cast
  ring_nf

/-! ### Lemmas: tokenization -/

/-- Tokens produced by the splitter are non-empty and contain no whitespace,
provided the accumulator contains none. -/
theorem pySplitAux_mem : ∀ (s acc k : List Char),
    (∀ c ∈ acc, isSpaceChar c = false) → k ∈ pySplitAux s acc →
    k ≠ [] ∧ ∀ c ∈ k, isSpaceChar c = false := by
  intro s
  induction s with
  | nil =>
    intro acc k hacc hk
    unfold pySplitAux at hk
    split at hk
    · simp at hk
    · rename_i hne
      simp only [List.mem_singleton] at hk
      subst hk
      refine ⟨by simpa using hne, ?_⟩
      intro c hc
      exact hacc c (List.mem_reverse.mp hc)
  | cons c rest ih =>
    intro acc k hacc hk
    unfold pySplitAux at hk
    split at hk
    · rename_i hsp
      split at hk
      · exact ih [] k (by simp) hk
      · rename_i hne
        rcases List.mem_cons.mp hk with hk | hk
        · subst hk
          refine ⟨by simpa using hne, ?_⟩
          intro d hd
          exact hacc d (List.mem_reverse.mp hd)
        · exact ih [] k (by simp) hk
    · rename_i hsp
      refine ih (c :: acc) k ?_ hk
      intro d hd
      rcases List.mem_cons.mp hd with rfl | hd
      · simpa using hsp
      · exact hacc d hd

/-- Every token of `pySplit` is non-empty and whitespace-free. -/
theorem pySplit_mem {k s : List Char} (hk : k ∈ pySplit s) :
    k ≠ [] ∧ ∀ c ∈ k, isSpaceChar c = false :=
  pySplitAux_mem s [] k (by simp) hk

/-- A splitter run with a non-empty accumulator emits at least one token. -/
theorem pySplitAux_ne_nil : ∀ (s acc : List Char), acc ≠ [] → pySplitAux s acc ≠ [] := by
  intro s
  induction s with
  | nil =>
    intro acc hacc
    unfold pySplitAux
    simp [hacc]
  | cons c rest ih =>
    intro acc hacc
    unfold pySplitAux
    split
    · simp [hacc]
    · exact ih (c :: acc) (by simp)

/-- If the splitter returns no token, every input character is whitespace. -/
theorem pySplitAux_eq_nil : ∀ (s acc : List Char), pySplitAux s acc = [] →
    ∀ c ∈ s, isSpaceChar c = true := by
  intro s
  induction s with
  | nil => simp
  | cons c rest ih =>
    intro acc h d hd
    unfold pySplitAux at h
    split at h
    · rename_i hsp
      split at h
      · rcases List.mem_cons.mp hd with rfl | hd
        · exact hsp
        · exact ih [] h d hd
      · simp at h
    · exact absurd h (pySplitAux_ne_nil rest (c :: acc) (by simp))

/-- A string containing a non-whitespace character splits into at least one
token; this is the non-zero-denominator fact behind
`count / len(content.split())`. -/
theorem pySplit_length_pos {s : List Char} (h : ∃ c ∈ s, isSpaceChar c = false) :
    0 < (pySplit s).length := by
  rcases h with ⟨c, hc, hcf⟩
  rcases List.eq_nil_or_concat (pySplit s) with hnil | _
  · exact absurd (pySplitAux_eq_nil s [] hnil c hc) (by simp [hcf])
  · rename_i hcon
    rcases hcon with ⟨l, a, hla⟩
    simp [hla]

/-! ### Lemmas: lowercasing -/

/-- In the uppercase range, `Char.ofNat` of the shifted code point has the
shifted code point. -/
theorem toNat_ofNat_shift {n : ℕ} (h1 : 97 ≤ n) (h2 : n ≤ 122) :
    (Char.ofNat n).toNat = n := by
  unfold Char.ofNat
  rw [dif_pos]
  · rfl
  · exact Or.inl (by omega)

/-- Lowercasing fixes whitespace characters. -/
theorem lowerChar_of_space {c : Char} (h : isSpaceChar c = true) : lowerChar c = c := by
  simp only [isSpaceChar, Bool.or_eq_true, decide_eq_true_eq] at h
  unfold lowerChar
  exact if_neg (by omega)

/-- Lowercasing does not change whether a character is whitespace. -/
theorem isSpaceChar_lowerChar (c : Char) : isSpaceChar (lowerChar c) = isSpaceChar c := by
  unfold lowerChar
  split_ifs with h
  · obtain ⟨h1, h2⟩ := h
    have ht : (Char.ofNat (c.toNat + 32)).toNat = c.toNat + 32 :=
      toNat_ofNat_shift (by omega) (by omega)
    have hl : isSpaceChar (Char.ofNat (c.toNat + 32)) = false := by
      simp only [isSpaceChar, ht, Bool.or_eq_false_iff, decide_eq_false_iff_not]
      omega
    have hr : isSpaceChar c = false := by
      simp only [isSpaceChar, Bool.or_eq_false_iff, decide_eq_false_iff_not]
      omega
    rw [hl, hr]
  · rfl

/-! ### Lemmas: substring search -/

/-- A successful Python `in` test is an infix relation. -/
theorem substrIn_infix {pat : List Char} : ∀ {s : List Char}, substrIn pat s = true → pat <:+: s := by
  intro s
  induction s with
  | nil =>
    intro h
    unfold substrIn at h
    rw [List.isEmpty_iff] at h
    subst h
    exact List.nil_infix
  | cons c rest ih =>
    intro h
    unfold substrIn at h
    rcases Bool.or_eq_true _ _ |>.mp h with h | h
    · exact (List.isPrefixOf_iff_prefix.mp h).isInfix
    · exact (ih h).trans (List.suffix_cons c rest).isInfix

/-! ### Lemmas: keyword extraction -/

/-- Words surviving first-occurrence deduplication come from the input. -/
theorem mem_dedupFirstAux {k : List Char} :
    ∀ (ws seen : List (List Char)), k ∈ dedupFirstAux seen ws → k ∈ ws := by
  intro ws
  induction ws with
  | nil => simp [dedupFirstAux]
  | cons w ws ih =>
    intro seen h
    unfold dedupFirstAux at h
    split at h
    · exact List.mem_cons_of_mem w (ih seen h)
    · rcases List.mem_cons.mp h with hk | h
      · subst hk
        exact List.mem_cons_self _ _
      · exact List.mem_cons_of_mem w (ih (w :: seen) h)

/-- `most_common` only returns words of its input. -/
theorem mem_most_common {k : List Char} {ws : List (List Char)} {n : ℕ}
    (h : k ∈ most_common ws n) : k ∈ ws := by
  unfold most_common at h
  exact mem_dedupFirstAux _ _ ((List.mem_insertionSort _).mp (List.take_subset _ _ h))

/-- Extracted keywords are tokens of the cleaned, lowercased text. -/
theorem mem_extract_keywords_tokens {k text : List Char} (h : k ∈ extract_keywords text) :
    k ∈ pySplit ((text.map lowerChar).map cleanChar) := by
  unfold extract_keywords at h
  split at h
  · simp at h
  · exact List.mem_of_mem_filter (mem_most_common h)

/-- Extracted keywords are non-empty and whitespace-free. -/
theorem extract_keywords_not_space {k text : List Char} (h : k ∈ extract_keywords text) :
    k ≠ [] ∧ ∀ c ∈ k, isSpaceChar c = false :=
  pySplit_mem (mem_extract_keywords_tokens h)

/-! ### Lemmas: slicing and ranking membership -/

/-- Both branches of the Python slice take a prefix. -/
theorem mem_pySlice {α} {t : α} {l : List α} {m : ℤ} (h : t ∈ pySlice l m) : t ∈ l := by
  unfold pySlice at h
  split at h <;> exact List.take_subset _ _ h

/-- For a non-negative bound the slice is a plain `take`. -/
theorem pySlice_of_nonneg {α} (l : List α) {m : ℤ} (h : 0 ≤ m) :
    pySlice l m = l.take m.toNat :=
  if_pos h

/-- For a negative bound the slice drops the last `|m|` elements. -/
theorem pySlice_of_neg {α} (l : List α) {m : ℤ} (h : m < 0) :
    pySlice l m = l.take (l.length - (-m).toNat) :=
  if_neg (by omega)

/-- Length bound of a non-negatively bounded slice. -/
theorem length_pySlice_le {α} (l : List α) {m : ℤ} (h : 0 ≤ m) :
    ((pySlice l m).length : ℤ) ≤ m := by
  rw [pySlice_of_nonneg l h, List.length_take]
  calc ((min m.toNat l.length : ℕ) : ℤ) ≤ (m.toNat : ℤ) := by
        exact_mod_cast Nat.min_le_left _ _
    _ = m := Int.toNat_of_nonneg h

/-- Members of `rank` come from the scored pool. -/
theorem mem_rank {t : Section} {l : List Section} {m : ℤ} (h : t ∈ rank l m) : t ∈ l :=
  (List.mem_insertionSort _).mp (mem_pySlice h)

/-- The ranker output is sorted non-increasingly by `relevance_score`. -/
theorem sorted_rank (l : List Section) (m : ℤ) : List.Sorted scoreGe (rank l m) := by
  have hs := List.sorted_insertionSort scoreGe l
  unfold rank pySlice
  split <;> exact List.Pairwise.sublist (List.take_sublist _ _) hs

/-- On an empty pool `rank_sections` returns the empty list. -/
theorem rank_sections_nil (lnq : ℚ → ℚ) (sims : Option (List ℚ)) (p j : List Char) (m : ℤ) :
    rank_sections lnq sims [] p j m = [] :=
  rfl

/-- On a non-empty pool with a failed vectorization, `rank_sections` ranks
the fallback-scored pool. -/
theorem rank_sections_none (lnq : ℚ → ℚ) (sections : List Section) (p j : List Char) (m : ℤ)
    (h : sections ≠ []) :
    rank_sections lnq none sections p j m =
      rank (sections.map (scoreSectionFallback lnq p j)) m := by
  unfold rank_sections
  rw [if_neg h]
  rfl

/-- On a non-empty pool with a well-formed similarity vector,
`rank_sections` ranks the primary-scored pool. -/
theorem rank_sections_some (lnq : ℚ → ℚ) (sims : List ℚ) (sections : List Section)
    (p j : List Char) (m : ℤ) (h : sections ≠ []) (hlen : sims.length = sections.length) :
    rank_sections lnq (some sims) sections p j m =
      rank ((sections.zip sims).map (scoreSectionPrimary lnq p j)) m := by
  unfold rank_sections
  rw [if_neg h]
  simp only [scoredPool]
  rw [if_pos hlen]

/-- Every output record of the fallback path is a fallback-scored input
section. -/
theorem mem_rank_sections_none {lnq : ℚ → ℚ} {t : Section} {sections : List Section}
    {p j : List Char} {m : ℤ} (h : t ∈ rank_sections lnq none sections p j m) :
    ∃ s ∈ sections, t = scoreSectionFallback lnq p j s := by
  rcases eq_or_ne sections [] with rfl | hne
  · rw [rank_sections_nil] at h
    simp at h
  · rw [rank_sections_none lnq sections p j m hne] at h
    rcases List.mem_map.mp (mem_rank h) with ⟨s, hs, heq⟩
    exact ⟨s, hs, heq.symm⟩

/-- Every output record of the primary path is a primary-scored
section/similarity pair. -/
theorem mem_rank_sections_some {lnq : ℚ → ℚ} {t : Section} {sims : List ℚ}
    {sections : List Section} {p j : List Char} {m : ℤ}
    (hlen : sims.length = sections.length)
    (h : t ∈ rank_sections lnq (some sims) sections p j m) :
    ∃ sv ∈ sections.zip sims, t = scoreSectionPrimary lnq p j sv := by
  rcases eq_or_ne sections [] with rfl | hne
  · rw [rank_sections_nil] at h
    simp at h
  · rw [rank_sections_some lnq sims sections p j m hne hlen] at h
    rcases List.mem_map.mp (mem_rank h) with ⟨sv, hsv, heq⟩
    exact ⟨sv, hsv, heq.symm⟩

/-! ### Lemmas: stability of the descending sort -/

/-- Inserting a section into a list commutes with filtering by an exact
score: the inserted element lands in front of the equal-score block, because
`orderedInsert` walks only past strictly larger scores. -/
theorem filter_orderedInsert_score (q : ℚ) (x : Section) :
    ∀ s : List Section,
      (List.orderedInsert scoreGe x s).filter (fun a => decide (a.relevance_score = q)) =
        if x.relevance_score = q then
          x :: s.filter (fun a => decide (a.relevance_score = q))
        else s.filter (fun a => decide (a.relevance_score = q)) := by
  intro s
  induction s with
  | nil =>
    simp only [List.orderedInsert, List.filter]
    by_cases hxq : x.relevance_score = q
    · rw [if_pos hxq]
      simp [hxq]
    · rw [if_neg hxq]
      simp [hxq]
  | cons y ys ih =>
    rw [List.orderedInsert]
    by_cases hr : scoreGe x y
    · rw [if_pos hr]
      by_cases hxq : x.relevance_score = q
      · rw [if_pos hxq, List.filter_cons_of_pos (by simpa using hxq)]
      · rw [if_neg hxq, List.filter_cons_of_neg (by simpa using hxq)]
    · rw [if_neg hr]
      have hxy : x.relevance_score < y.relevance_score := lt_of_not_le hr
      by_cases hxq : x.relevance_score = q
      · rw [if_pos hxq]
        have hyq : ¬ (y.relevance_score = q) := by
          rw [← hxq]
          exact ne_of_gt hxy
        rw [List.filter_cons_of_neg (by simpa using hyq),
          List.filter_cons_of_neg (by simpa using hyq), ih, if_pos hxq]
      · rw [if_neg hxq, List.filter_cons, List.filter_cons, ih, if_neg hxq]

/-- Stability of the stable descending sort: restricted to any fixed score,
the sorted pool lists its sections in input order. -/
theorem filter_insertionSort_score (q : ℚ) :
    ∀ l : List Section,
      (List.insertionSort scoreGe l).filter (fun a => decide (a.relevance_score = q)) =
        l.filter (fun a => decide (a.relevance_score = q)) := by
  intro l
  induction l with
  | nil => rfl
  | cons x xs ih =>
    simp only [List.insertionSort]
    rw [filter_orderedInsert_score, ih]
    by_cases hxq : x.relevance_score = q
    · rw [if_pos hxq, List.filter_cons_of_pos (by simpa using hxq)]
    · rw [if_neg hxq, List.filter_cons_of_neg (by simpa using hxq)]

/-! ### Lemmas: idempotence ingredients -/

/-- Re-scoring a fallback-scored section changes nothing: the keyword score
depends only on the (unchanged) content. -/
theorem scoreSectionFallback_idem (lnq : ℚ → ℚ) (p j : List Char) (s : Section) :
    scoreSectionFallback lnq p j (scoreSectionFallback lnq p j s) =
      scoreSectionFallback lnq p j s :=
  rfl

/-- A map that fixes every member of a list fixes the list. -/
theorem list_map_eq_self {α} {f : α → α} :
    ∀ {l : List α}, (∀ x ∈ l, f x = x) → l.map f = l := by
  intro l
  induction l with
  | nil => intro _; rfl
  | cons x xs ih =>
    intro h
    simp only [List.map_cons]
    rw [h x (List.mem_cons_self x xs), ih (fun y hy => h y (List.mem_cons_of_mem x hy))]

/-! ### Lemmas: page markers -/

/-- `takeWhile` passes over a block that satisfies the predicate. -/
theorem takeWhile_append_of_all {p : Char → Bool} :
    ∀ {ds l : List Char}, (∀ a ∈ ds, p a = true) →
      (ds ++ l).takeWhile p = ds ++ l.takeWhile p := by
  intro ds
  induction ds with
  | nil => intro l _; rfl
  | cons d ds ih =>
    intro l h
    rw [List.cons_append, List.takeWhile_cons, if_pos (h d (List.mem_cons_self d ds)),
      ih (fun a ha => h a (List.mem_cons_of_mem d ha)), List.cons_append]

/-- `dropWhile` skips a block that satisfies the predicate. -/
theorem dropWhile_append_of_all {p : Char → Bool} :
    ∀ {ds l : List Char}, (∀ a ∈ ds, p a = true) →
      (ds ++ l).dropWhile p = l.dropWhile p := by
  intro ds
  induction ds with
  | nil => intro l _; rfl
  | cons d ds ih =>
    intro l h
    rw [List.cons_append, List.dropWhile_cons, if_pos (h d (List.mem_cons_self d ds)),
      ih (fun a ha => h a (List.mem_cons_of_mem d ha))]

/-- The page regex matches at the head of a well-formed marker and captures
exactly the digit run. -/
theorem matchPageAt_marker (ds rest : List Char) (hne : ds ≠ [])
    (hdig : ∀ c ∈ ds, c.isDigit = true) :
    matchPageAt (pageMarkerHead ++ (ds ++ ']' :: rest)) = some ds := by
  have hpre : pageMarkerHead.isPrefixOf (pageMarkerHead ++ (ds ++ ']' :: rest)) = true :=
    List.isPrefixOf_iff_prefix.mpr ⟨ds ++ ']' :: rest, rfl⟩
  have hdm : (pageMarkerHead ++ (ds ++ ']' :: rest)).drop 6 = ds ++ ']' :: rest := by
    have h6 : (6 : ℕ) = pageMarkerHead.length := rfl
    rw [h6, List.drop_left]
  have htw : (ds ++ ']' :: rest).takeWhile Char.isDigit = ds := by
    rw [takeWhile_append_of_all hdig]
    simp [List.takeWhile_cons]
  have hdw : (ds ++ ']' :: rest).dropWhile Char.isDigit = ']' :: rest := by
    rw [dropWhile_append_of_all hdig]
    simp [List.dropWhile_cons]
  have hie : ds.isEmpty = false := by
    cases ds with
    | nil => exact absurd rfl hne
    | cons d ds => rfl
  unfold matchPageAt
  rw [if_pos hpre]
  simp only [hdm, htw, hdw, hie]
  rfl

/-- A successful anchored match makes `re.search` succeed with it. -/
theorem findPage_of_match {s ds : List Char} (hm : matchPageAt s = some ds) :
    findPage s = some ds := by
  cases s with
  | nil =>
    rw [show matchPageAt [] = none from rfl] at hm
    cases hm
  | cons c l =>
    unfold findPage
    rw [hm]

/-- If no position of `s` starts a page marker, `re.search` fails. -/
theorem findPage_eq_none {s : List Char}
    (h : ∀ i ≤ s.length, matchPageAt (s.drop i) = none) : findPage s = none := by
  induction s with
  | nil => rfl
  | cons c l ih =>
    unfold findPage
    have h0 : matchPageAt (c :: l) = none := by simpa using h 0 (by omega)
    rw [h0]
    exact ih (fun i hi => by
      simpa [List.drop_succ_cons] using h (i + 1) (by simp only [List.length_cons]; omega))

/-- On a non-empty pool, a similarity vector of the wrong length (an
`IndexError` inside the `try` block) also lands in the fallback. -/
theorem rank_sections_some_mismatch (lnq : ℚ → ℚ) (sims : List ℚ) (sections : List Section)
    (p j : List Char) (m : ℤ) (h : sections ≠ []) (hlen : sims.length ≠ sections.length) :
    rank_sections lnq (some sims) sections p j m =
      rank (sections.map (scoreSectionFallback lnq p j)) m := by
  unfold rank_sections
  rw [if_neg h]
  simp only [scoredPool]
  rw [if_neg hlen]

/-- Whatever the oracle, on a non-empty pool `rank_sections` is `rank` of a
scored pool of the same length. -/
theorem rank_sections_eq_rank (lnq : ℚ → ℚ) (sims : Option (List ℚ)) (sections : List Section)
    (p j : List Char) (m : ℤ) (h : sections ≠ []) :
    ∃ scored : List Section, scored.length = sections.length ∧
      rank_sections lnq sims sections p j m = rank scored m := by
  cases sims with
  | none => exact ⟨_, by simp, rank_sections_none _ _ _ _ _ h⟩
  | some l =>
    by_cases hlen : l.length = sections.length
    · refine ⟨_, ?_, rank_sections_some _ _ _ _ _ _ h hlen⟩
      rw [List.length_map, List.length_zip, hlen, min_self]
    · exact ⟨_, by simp, rank_sections_some_mismatch _ _ _ _ _ _ h hlen⟩

/-! ### Claims -/

/-- C4: for every input text, boundary-offset list and `min_length`, every
Section returned by `extract_sections` has `word_count` equal to the number
of whitespace-delimited tokens of its `content`, and `word_count` at least
`min_length`. -/
theorem claim_C4_word_count_invariant (offsets : List ℕ) (text : List Char) (min_length : ℤ)
    (s : Section) (hs : s ∈ extract_sections offsets text min_length) :
    s.word_count = (pySplit s.content).length ∧ min_length ≤ (s.word_count : ℤ) := by
  unfold extract_sections at hs
  split at hs
  · simp at hs
  · rcases List.mem_filterMap.mp hs with ⟨be, _, heq⟩
    unfold sectionOfSlice at heq
    split at heq
    · rename_i hlen
      injection heq with h
      subst h
      exact ⟨rfl, hlen⟩
    · cases heq

/-- Witness for C4 on the text `alpha beta` with `min_length = 1`. -/
theorem claim_C4_witness :
    (⟨(r"alpha beta").toList, (r"alpha beta").toList, 1, 2, [], 0⟩ : Section).word_count =
        (pySplit (⟨(r"alpha beta").toList, (r"alpha beta").toList, 1, 2, [], 0⟩ :
          Section).content).length ∧
      (1 : ℤ) ≤ ((⟨(r"alpha beta").toList, (r"alpha beta").toList, 1, 2, [], 0⟩ :
        Section).word_count : ℤ) :=
  claim_C4_word_count_invariant [] ((r"alpha beta").toList) 1 _ (by decide)

/-- C7: a section text that starts with the marker `[PAGE n]` reports
`page_number` equal to the numeric value of the digit run `n`, and a section
text containing no page marker at any position reports the default 1. -/
theorem claim_C7_page_number_round_trip :
    (∀ ds rest : List Char, ds ≠ [] → (∀ c ∈ ds, c.isDigit = true) →
        extract_page_number (pageMarkerHead ++ (ds ++ ']' :: rest)) = digitsToNat ds) ∧
      (∀ s : List Char, (∀ i ≤ s.length, matchPageAt (s.drop i) = none) →
        extract_page_number s = 1) := by
  constructor
  · intro ds rest hne hdig
    unfold extract_page_number
    rw [findPage_of_match (matchPageAt_marker ds rest hne hdig)]
  · intro s h
    unfold extract_page_number
    rw [findPage_eq_none h]

/-- Witness for C7: `[PAGE 7] INTRO` reports 7, `no marker here` reports 1. -/
theorem claim_C7_witness :
    extract_page_number ((r"[PAGE 7] INTRO").toList) = 7 ∧
      extract_page_number ((r"no marker here").toList) = 1 := by
  constructor
  · have h := claim_C7_page_number_round_trip.1 ['7'] ((r" INTRO").toList)
      (by decide) (by decide)
    have e : (r"[PAGE 7] INTRO").toList = pageMarkerHead ++ (['7'] ++ ']' :: (r" INTRO").toList) := by
      decide
    rw [e, h]
    rfl
  · exact claim_C7_page_number_round_trip.2 ((r"no marker here").toList) (by decide)

/-- C8: in the Summarizer, every sentence surviving the minimum-length
filter (at least 5 whitespace tokens) is scored as its token count plus
twice the number of distinct keywords the KeywordExtractor returns for it. -/
theorem claim_C8_sentence_score (sentences : List (List Char)) (s : List Char)
    (hs : s ∈ sentences) (hlen : 5 ≤ (pySplit s).length) :
    (s, (pySplit s).length + 2 * (extract_keywords s).length) ∈ scoredSentences sentences := by
  induction sentences with
  | nil => cases hs
  | cons t ts ih =>
    rcases List.mem_cons.mp hs with heq | hmem
    · subst heq
      unfold scoredSentences
      rw [if_neg (by omega)]
      exact List.mem_cons_self _ _
    · unfold scoredSentences
      split
      · exact ih hmem
      · exact List.mem_cons_of_mem _ (ih hmem)

/-- Witness for C8 on a five-token sentence. -/
theorem claim_C8_witness :
    (((r"aaa bbb ccc ddd eee").toList),
        (pySplit ((r"aaa bbb ccc ddd eee").toList)).length +
          2 * (extract_keywords ((r"aaa bbb ccc ddd eee").toList)).length) ∈
      scoredSentences [((r"aaa bbb ccc ddd eee").toList)] :=
  claim_C8_sentence_score [((r"aaa bbb ccc ddd eee").toList)] ((r"aaa bbb ccc ddd eee").toList)
    (by decide) (by decide)

/-- C10: the division `count / len(content.split())` inside
`calculate_keyword_score` is guarded: a keyword extracted from the job that
occurs (Python `in`) in the lowercased content forces the content to have at
least one whitespace-delimited token, so the denominator is positive and
the (total) scoring function never divides by zero. -/
theorem claim_C10_keyword_guard_denominator_pos (content job k : List Char)
    (hk : k ∈ extract_keywords job)
    (hsub : substrIn (k.map lowerChar) (content.map lowerChar) = true) :
    0 < (pySplit content).length := by
  obtain ⟨hne, hns⟩ := extract_keywords_not_space hk
  have hinf : (k.map lowerChar) <:+: (content.map lowerChar) := substrIn_infix hsub
  cases k with
  | nil => exact absurd rfl hne
  | cons c k' =>
    have hc0 : lowerChar c ∈ content.map lowerChar := hinf.subset (by simp)
    rcases List.mem_map.mp hc0 with ⟨d, hd, hde⟩
    have h2 : isSpaceChar (lowerChar c) = false := by
      rw [isSpaceChar_lowerChar]
      exact hns c (List.mem_cons_self _ _)
    rw [← hde, isSpaceChar_lowerChar] at h2
    exact pySplit_length_pos ⟨d, hd, h2⟩

/-- Witness for C10: job keyword `alpha` occurring in `xx alpha yy`. -/
theorem claim_C10_witness : 0 < (pySplit ((r"xx alpha yy").toList)).length :=
  claim_C10_keyword_guard_denominator_pos ((r"xx alpha yy").toList) ((r"alpha alpha").toList)
    ((r"alpha").toList) (by decide) (by decide)

/-- C1: when the TF-IDF vectorization cannot be computed (degenerate
corpus, oracle `none`), `rank_sections` — a total function, mirroring that
the `except` handler lets no exception escape to the caller — gives every
returned section exactly the keyword-only score of its content, unscaled. -/
theorem claim_C1_fallback_keyword_only (lnq : ℚ → ℚ) (sections : List Section)
    (p j : List Char) (m : ℤ) (t : Section)
    (ht : t ∈ rank_sections lnq none sections p j m) :
    t.relevance_score = calculate_keyword_score lnq t.content p j := by
  rcases mem_rank_sections_none ht with ⟨s, _, rfl⟩
  rfl

/-- Witness for C1: a singleton pool under the fallback. -/
theorem claim_C1_witness :
    (scoreSectionFallback (fun _ => 0) [] [] ⟨[], ['a'], 1, 1, [], 0⟩).relevance_score =
      calculate_keyword_score (fun _ => 0)
        (scoreSectionFallback (fun _ => 0) [] [] ⟨[], ['a'], 1, 1, [], 0⟩).content [] [] :=
  claim_C1_fallback_keyword_only (fun _ => 0) [⟨[], ['a'], 1, 1, [], 0⟩] [] [] 5 _ (by decide)

/-- C5: when the primary TF-IDF path succeeds (a similarity vector of the
right length), every returned record is the primary scoring of its own
aligned (section, similarity) pair — so its `relevance_score` is that
section's cosine similarity scaled to 0-100 times 0.7, plus that section's
keyword score times 0.3, rounded to two decimal places. -/
theorem claim_C5_primary_blend (lnq : ℚ → ℚ) (sims : List ℚ) (sections : List Section)
    (p j : List Char) (m : ℤ) (hlen : sims.length = sections.length) (t : Section)
    (ht : t ∈ rank_sections lnq (some sims) sections p j m) :
    ∃ sv ∈ sections.zip sims,
      t = scoreSectionPrimary lnq p j sv ∧
        t.content = sv.1.content ∧
        t.relevance_score =
          round2 ((sv.2 * 100) * (7 / 10) +
            (calculate_keyword_score lnq sv.1.content p j) * (3 / 10)) := by
  rcases mem_rank_sections_some hlen ht with ⟨sv, hsv, rfl⟩
  exact ⟨sv, hsv, rfl, rfl, rfl⟩

/-- Witness for C5: one section with similarity 1. -/
theorem claim_C5_witness :
    ∃ sv ∈ ([(⟨[], ['a'], 1, 1, [], 0⟩ : Section)].zip [(1 : ℚ)]),
      (scoreSectionPrimary (fun _ => 0) [] [] (⟨[], ['a'], 1, 1, [], 0⟩, 1)) =
          scoreSectionPrimary (fun _ => 0) [] [] sv ∧
        (scoreSectionPrimary (fun _ => 0) [] [] (⟨[], ['a'], 1, 1, [], 0⟩, 1)).content =
          sv.1.content ∧
        (scoreSectionPrimary (fun _ => 0) [] [] (⟨[], ['a'], 1, 1, [], 0⟩, 1)).relevance_score =
          round2 ((sv.2 * 100) * (7 / 10) +
            (calculate_keyword_score (fun _ => 0) sv.1.content [] []) * (3 / 10)) :=
  claim_C5_primary_blend (fun _ => 0) [1] [⟨[], ['a'], 1, 1, [], 0⟩] [] [] 3 rfl _
    (List.mem_cons_self _ _)

/-- C9: scoring attaches only `relevance_score`: every other field of every
record returned by `rank_sections` equals the corresponding field of the
input section it came from, on every code path. -/
theorem claim_C9_frame (lnq : ℚ → ℚ) (sims : Option (List ℚ)) (sections : List Section)
    (p j : List Char) (m : ℤ) (t : Section)
    (ht : t ∈ rank_sections lnq sims sections p j m) :
    ∃ s ∈ sections, t.title = s.title ∧ t.content = s.content ∧
      t.page_number = s.page_number ∧ t.word_count = s.word_count ∧
      t.document = s.document := by
  rcases sims with _ | l
  · rcases mem_rank_sections_none ht with ⟨s, hs, rfl⟩
    exact ⟨s, hs, rfl, rfl, rfl, rfl, rfl⟩
  · rcases eq_or_ne sections [] with rfl | hne
    · rw [rank_sections_nil] at ht
      cases ht
    · by_cases hlen : l.length = sections.length
      · rcases mem_rank_sections_some hlen ht with ⟨sv, hsv, rfl⟩
        exact ⟨sv.1, (List.of_mem_zip hsv).1, rfl, rfl, rfl, rfl, rfl⟩
      · rw [rank_sections_some_mismatch lnq l sections p j m hne hlen] at ht
        rcases List.mem_map.mp (mem_rank ht) with ⟨s, hs, heq⟩
        subst heq
        exact ⟨s, hs, rfl, rfl, rfl, rfl, rfl⟩

/-- Witness for C9: a scored singleton keeps all non-score fields. -/
theorem claim_C9_witness :
    ∃ s ∈ [(⟨['t'], ['a'], 1, 1, ['d'], 0⟩ : Section)],
      (scoreSectionFallback (fun _ => 0) [] [] ⟨['t'], ['a'], 1, 1, ['d'], 0⟩).title = s.title ∧
      (scoreSectionFallback (fun _ => 0) [] [] ⟨['t'], ['a'], 1, 1, ['d'], 0⟩).content =
        s.content ∧
      (scoreSectionFallback (fun _ => 0) [] [] ⟨['t'], ['a'], 1, 1, ['d'], 0⟩).page_number =
        s.page_number ∧
      (scoreSectionFallback (fun _ => 0) [] [] ⟨['t'], ['a'], 1, 1, ['d'], 0⟩).word_count =
        s.word_count ∧
      (scoreSectionFallback (fun _ => 0) [] [] ⟨['t'], ['a'], 1, 1, ['d'], 0⟩).document =
        s.document :=
  claim_C9_frame (fun _ => 0) none [⟨['t'], ['a'], 1, 1, ['d'], 0⟩] [] [] 5 _ (by decide)

/-- C2 as stated is false: for a ranking call with `max_sections = -1` on a
pool of two scored sections, the Python slice `[:-1]` keeps one section, and
its count is not at most `-1`. -/
theorem claim_C2_cx :
    ¬ (((rank [⟨[], ['a'], 1, 1, [], 2⟩, ⟨[], ['b'], 1, 1, [], 1⟩] (-1)).length : ℤ) ≤ -1) := by
  decide

/-- C2 amended: restricted to `max_sections ≥ 0` (the restriction the
counterexample forces), the ranker output is the `max_sections`-prefix of
the stable descending sort of the pool: its length is at most
`max_sections`, it is sorted non-increasingly by `relevance_score`, the sort
permutes the pool, and it is stable — per score value, sections appear in
input order. -/
theorem claim_C2_amended_rank_sorted_stable (pool : List Section) (m : ℤ) (hm : 0 ≤ m) :
    ((rank pool m).length : ℤ) ≤ m ∧
      List.Sorted scoreGe (rank pool m) ∧
      (List.insertionSort scoreGe pool).Perm pool ∧
      (∀ q : ℚ,
        (List.insertionSort scoreGe pool).filter (fun a => decide (a.relevance_score = q)) =
          pool.filter (fun a => decide (a.relevance_score = q))) ∧
      rank pool m = (List.insertionSort scoreGe pool).take m.toNat :=
  ⟨length_pySlice_le _ hm, sorted_rank pool m, List.perm_insertionSort _ _,
    fun q => filter_insertionSort_score q pool, pySlice_of_nonneg _ hm⟩

/-- Witness for C2 (amended) on a concrete two-section pool. -/
theorem claim_C2_witness :
    (((rank [⟨[], ['a'], 1, 1, [], 1⟩, ⟨[], ['b'], 1, 1, [], 2⟩] 1).length : ℤ) ≤ 1) ∧
      rank [⟨[], ['a'], 1, 1, [], 1⟩, ⟨[], ['b'], 1, 1, [], 2⟩] 1 =
        (List.insertionSort scoreGe
          [⟨[], ['a'], 1, 1, [], 1⟩, ⟨[], ['b'], 1, 1, [], 2⟩]).take (1 : ℤ).toNat :=
  ⟨(claim_C2_amended_rank_sorted_stable
      [⟨[], ['a'], 1, 1, [], 1⟩, ⟨[], ['b'], 1, 1, [], 2⟩] 1 (by decide)).1,
    (claim_C2_amended_rank_sorted_stable
      [⟨[], ['a'], 1, 1, [], 1⟩, ⟨[], ['b'], 1, 1, [], 2⟩] 1 (by decide)).2.2.2.2⟩

/-- C3 as stated is false: on a non-empty pool of two sections (with the
degenerate-corpus fallback) and `max_sections = -1`, the returned sequence
is not empty — the Python slice `[:-1]` drops only the last section. -/
theorem claim_C3_cx :
    rank_sections (fun _ => 0) none
      [⟨[], ['a'], 1, 1, [], 0⟩, ⟨[], ['b'], 1, 1, [], 0⟩] [] [] (-1) ≠ [] := by
  decide

/-- C3 amended: `max_sections = 0` yields the empty sequence, but a negative
`max_sections` yields the first `pool size − |max_sections|` sections of the
ranking (clamped at zero, Python slice semantics) — empty only when the
pool has at most `|max_sections|` sections. -/
theorem claim_C3_amended_nonpositive_slice (lnq : ℚ → ℚ) (sims : Option (List ℚ))
    (sections : List Section) (p j : List Char) :
    rank_sections lnq sims sections p j 0 = [] ∧
      ∀ m : ℤ, m < 0 →
        (rank_sections lnq sims sections p j m).length = sections.length - (-m).toNat := by
  constructor
  · rcases eq_or_ne sections [] with rfl | hne
    · rfl
    · rcases rank_sections_eq_rank lnq sims sections p j 0 hne with ⟨scored, _, heq⟩
      rw [heq]
      unfold rank
      rw [pySlice_of_nonneg _ le_rfl]
      simp
  · intro m hm
    rcases eq_or_ne sections [] with rfl | hne
    · simp [rank_sections_nil]
    · rcases rank_sections_eq_rank lnq sims sections p j m hne with ⟨scored, hlen, heq⟩
      rw [heq]
      unfold rank
      rw [pySlice_of_neg _ hm, List.length_take, List.length_insertionSort, hlen]
      exact min_eq_left (Nat.sub_le _ _)

/-- Witness for C3 (amended) on a concrete singleton pool. -/
theorem claim_C3_witness :
    rank_sections (fun _ => 0) none [⟨[], ['a'], 1, 1, [], 0⟩] [] [] 0 = [] ∧
      (rank_sections (fun _ => 0) none [⟨[], ['a'], 1, 1, [], 0⟩] [] [] (-2)).length =
        ([(⟨[], ['a'], 1, 1, [], 0⟩ : Section)]).length - (-(-2 : ℤ)).toNat :=
  ⟨(claim_C3_amended_nonpositive_slice (fun _ => 0) none [⟨[], ['a'], 1, 1, [], 0⟩] [] []).1,
    (claim_C3_amended_nonpositive_slice (fun _ => 0) none [⟨[], ['a'], 1, 1, [], 0⟩] [] []).2
      (-2) (by decide)⟩

/-- C6 as stated is false: with `max_sections = -1` on a three-section pool
(degenerate-corpus fallback), ranking returns two sections and re-ranking
that output returns one, so re-ranking does not reproduce the output. -/
theorem claim_C6_cx :
    rank_sections (fun _ => 0) none
        (rank_sections (fun _ => 0) none
          [⟨[], ['a'], 1, 1, [], 0⟩, ⟨[], ['b'], 1, 1, [], 0⟩, ⟨[], ['c'], 1, 1, [], 0⟩]
          [] [] (-1)) [] [] (-1) ≠
      rank_sections (fun _ => 0) none
        [⟨[], ['a'], 1, 1, [], 0⟩, ⟨[], ['b'], 1, 1, [], 0⟩, ⟨[], ['c'], 1, 1, [], 0⟩]
        [] [] (-1) := by
  decide

/-- C6 amended: for `max_sections ≥ 0` (the restriction the counterexample
forces) and keyword-fallback scoring in both calls (the only path whose
scores the embedding can recompute — the primary path re-fits the external
vectorizer on the truncated corpus), re-ranking the ranked, truncated output
with the same persona, job and `max_sections` reproduces it exactly. -/
theorem claim_C6_amended_idempotent (lnq : ℚ → ℚ) (sections : List Section)
    (p j : List Char) (m : ℤ) (hm : 0 ≤ m) :
    rank_sections lnq none (rank_sections lnq none sections p j m) p j m =
      rank_sections lnq none sections p j m := by
  rcases eq_or_ne sections [] with rfl | hne
  · rw [rank_sections_nil, rank_sections_nil]
  · rcases eq_or_ne (rank_sections lnq none sections p j m) [] with hnil | hone
    · rw [hnil, rank_sections_nil]
    · rw [rank_sections_none lnq (rank_sections lnq none sections p j m) p j m hone]
      have hfix : (rank_sections lnq none sections p j m).map (scoreSectionFallback lnq p j) =
          rank_sections lnq none sections p j m := by
        apply list_map_eq_self
        intro t ht2
        rcases mem_rank_sections_none ht2 with ⟨s, _, rfl⟩
        exact scoreSectionFallback_idem lnq p j s
      rw [hfix]
      have hsort : List.Sorted scoreGe (rank_sections lnq none sections p j m) := by
        rw [rank_sections_none lnq sections p j m hne]
        exact sorted_rank _ _
      unfold rank
      rw [hsort.insertionSort_eq, pySlice_of_nonneg _ hm]
      apply List.take_of_length_le
      rw [rank_sections_none lnq sections p j m hne]
      unfold rank
      rw [pySlice_of_nonneg _ hm, List.length_take]
      exact Nat.min_le_left _ _

/-- Witness for C6 (amended) on a concrete two-section pool. -/
theorem claim_C6_witness :
    rank_sections (fun _ => 0) none
        (rank_sections (fun _ => 0) none
          [⟨[], ['a'], 1, 1, [], 0⟩, ⟨[], ['b'], 1, 1, [], 0⟩] [] [] 5) [] [] 5 =
      rank_sections (fun _ => 0) none
        [⟨[], ['a'], 1, 1, [], 0⟩, ⟨[], ['b'], 1, 1, [], 0⟩] [] [] 5 :=
  claim_C6_amended_idempotent (fun _ => 0)
    [⟨[], ['a'], 1, 1, [], 0⟩, ⟨[], ['b'], 1, 1, [], 0⟩] [] [] 5 (by decide)

end DocInsight
